import Mathlib

/-!
Shallow embedding of the pyopia pipeline orchestration engine and the
file-chunking / background-window subsystem (`pyopia/pipeline.py`), together
with theorems settling the specification claims about them.

File lists are modelled as Lean lists; Python file-path strings are modelled
as `String` where only identity matters and as `List Char` where the
character-level behaviour of file persistence matters.  Python exceptions are
modelled with `Except`.
-/

namespace PyOpia

/-- Error taxonomy.  `pipeline.py` raises `RuntimeError` for the two chunking
guards; the specification's error taxonomy names these `ConfigurationError`.
`valueError` models the `ValueError` that Python's `range(0, 0, 0)` raises. -/
inductive PipelineError where
  | configurationError (msg : String)
  | valueError (msg : String)
deriving DecidableEq

/-- State of a `FilesToProcess` object (`pipeline.py` lines 330-416):
the ordered file list, the background-file bookkeeping list and the list of
produced chunks. -/
structure FilesToProcess (α : Type) where
  files : List α
  background_files : List α
  chunked_files : List (List α)
deriving DecidableEq

/-- `FilesToProcess.__init__` with a glob pattern whose sorted expansion is
`files`: `background_files` and `chunked_files` start empty. -/
def FilesToProcess.ofFiles {α : Type} (files : List α) : FilesToProcess α :=
  ⟨files, [], []⟩

/-- Python's slice `l[-w:]`.  For `w = 0` this is the WHOLE list
(`l[-0:] = l[0:] = l`, a well-known Python pitfall); for `w > 0` it is the
last `min w l.length` elements. -/
def takeLastPy {α : Type} (w : Nat) (l : List α) : List α :=
  if w = 0 then l else l.drop (l.length - w)

/-- `int(np.ceil(n / k))` for natural `n`, `k` with `k ≥ 1`. -/
def chunkLength (n k : Nat) : Nat := (n + k - 1) / k

/-- The slicing `[files[i:i+cl] for i in range(0, len(files), cl)]`, written
with a fuel argument (`fuel ≥ l.length` suffices whenever `cl ≥ 1`). -/
def chunkSlicesGo {α : Type} (cl : Nat) : Nat → List α → List (List α)
  | 0, _ => []
  | _ + 1, [] => []
  | fuel + 1, x :: xs => ((x :: xs).take cl) :: chunkSlicesGo cl fuel ((x :: xs).drop cl)

/-- The list of contiguous slices of `l` of length `cl` (final slice possibly
shorter). -/
def chunkSlices {α : Type} (cl : Nat) (l : List α) : List (List α) :=
  chunkSlicesGo cl l.length l

/-- `FilesToProcess.chunk_files` (`pipeline.py` lines 373-384).  Raises
`RuntimeError` (spec: `ConfigurationError`) for `num_chunks < 1`; for an
empty file list `chunk_length = 0` and Python's `range(0, 0, 0)` raises
`ValueError`. -/
def chunk_files {α : Type} (ftp : FilesToProcess α) (num_chunks : Nat) :
    Except PipelineError (FilesToProcess α) :=
  if num_chunks < 1 then
    .error (.configurationError "You must have at least one chunk")
  else
    let cl := chunkLength ftp.files.length num_chunks
    if cl = 0 then .error (.valueError "range() arg 3 must not be zero")
    else .ok { ftp with chunked_files := chunkSlices cl ftp.files }

/-- `FilesToProcess.build_initial_background_files` (`pipeline.py`
lines 399-409): reset `background_files` and append `files[0:average_window]`. -/
def build_initial_background_files {α : Type} (ftp : FilesToProcess α)
    (average_window : Nat) : FilesToProcess α :=
  { ftp with background_files := ftp.files.take average_window }

/-- The loop body of `FilesToProcess.insert_bg_files_into_chunks`
(`pipeline.py` lines 386-397), instrumented so that for every chunk it
records the pair (inserted background files, the chunk's own files); the
produced chunk is the concatenation of the two.  `w` is
`len(self.background_files)` captured once before the loop; `prev` is the
previously processed chunk — already carrying its inserted files, since the
Python loop mutates `self.chunked_files[i-1]` in place before iteration `i`
reads it — and is `none` at `i = 0`.  For `i > 0` in rolling mode the
background list is extended with `chunked_files[i-1][-w:]`, and every chunk
is prefixed with `background_files[-w:]` (inserted one by one at index 0,
iterating in reverse, hence in original order). -/
def insertBgGo {α : Type} (w : Nat) (rolling : Bool) :
    List α → Option (List α) → List (List α) → List α × List (List α × List α)
  | bg, _, [] => (bg, [])
  | bg, prev, chunk :: rest =>
    let bg1 := match prev with
      | none => bg
      | some q => if rolling then bg ++ takeLastPy w q else bg
    let pf := takeLastPy w bg1
    let r := insertBgGo w rolling bg1 (some (pf ++ chunk)) rest
    (r.1, (pf, chunk) :: r.2)

/-- `FilesToProcess.insert_bg_files_into_chunks` (`pipeline.py`
lines 386-397). -/
def insert_bg_files_into_chunks {α : Type} (ftp : FilesToProcess α)
    (bgshift_function : String) : FilesToProcess α :=
  let w := ftp.background_files.length
  let r := insertBgGo w (bgshift_function != "pass") ftp.background_files none
      ftp.chunked_files
  { ftp with background_files := r.1,
             chunked_files := r.2.map (fun pc => pc.1 ++ pc.2) }

/-- `FilesToProcess.prepare_chunking` (`pipeline.py` lines 366-371): guard,
then `chunk_files`, `build_initial_background_files`,
`insert_bg_files_into_chunks`. -/
def prepare_chunking {α : Type} (ftp : FilesToProcess α)
    (num_chunks average_window : Nat) (bgshift_function : String) :
    Except PipelineError (FilesToProcess α) :=
  if ftp.files.length / 2 < num_chunks then
    .error (.configurationError
      "Number of chunks exceeds more than half the number of files to process. Use less chunks.")
  else
    match chunk_files ftp num_chunks with
    | .error e => .error e
    | .ok f1 =>
      let f2 := build_initial_background_files f1 average_window
      .ok (insert_bg_files_into_chunks f2 bgshift_function)

/-- The contiguous slices `prepare_chunking` builds for `files` and
`num_chunks = k` — each chunk's own (non-background) files. -/
def planSlices {α : Type} (files : List α) (k : Nat) : List (List α) :=
  chunkSlices (chunkLength files.length k) files

/-- The instrumented run of the background-insertion loop on the
intermediates that `prepare_chunking files k w mode` reaches: final
`background_files` plus, per chunk, (inserted background files, own files). -/
def planAnnotated {α : Type} (files : List α) (k w : Nat) (mode : String) :
    List α × List (List α × List α) :=
  insertBgGo (files.take w).length (mode != "pass") (files.take w) none
    (planSlices files k)

/-- The background files inserted at the head of each produced chunk. -/
def planPrefList {α : Type} (files : List α) (k w : Nat) (mode : String) :
    List (List α) :=
  (planAnnotated files k w mode).2.map Prod.fst

/-- The chunks `prepare_chunking files k w mode` produces. -/
def planChunks {α : Type} (files : List α) (k w : Nat) (mode : String) :
    List (List α) :=
  (planAnnotated files k w mode).2.map (fun pc => pc.1 ++ pc.2)

/-- Conclusion of claim C1: `prepare_chunking` succeeds, its chunks are the
instrumented (prefix, own files) pairs joined, the recorded own-files
portions (each produced chunk with its injected background prefix removed)
are exactly the contiguous slices, and concatenating them in chunk order
reproduces the original file list with no gap and no overlap. -/
def NonBgConcatOk {α : Type} (files : List α) (k w : Nat) (mode : String) : Prop :=
  prepare_chunking (FilesToProcess.ofFiles files) k w mode =
    .ok ⟨files, (planAnnotated files k w mode).1, planChunks files k w mode⟩
  ∧ (planAnnotated files k w mode).2.map Prod.snd = planSlices files k
  ∧ (planSlices files k).flatten = files

/-- Conclusion of the amended claim C5: under a rolling mode, the background
files inserted at the head of every chunk `i > 0` are exactly the last
`len(background_files)` files of the previously produced chunk `i-1` (the
chunk as already background-prefixed, which is what the code reads), taken
as a contiguous suffix in original order, and always exactly that many. -/
def RollingPrevChunkOk {α : Type} (files : List α) (k w : Nat) (mode : String) : Prop :=
  ∀ i, i + 1 < (planPrefList files k w mode).length →
    (planPrefList files k w mode).getD (i + 1) [] =
      takeLastPy (files.take w).length ((planChunks files k w mode).getD i [])
    ∧ ((planPrefList files k w mode).getD (i + 1) []).length = (files.take w).length

/-- Conclusion of the amended claim C9: `chunk_files` succeeds and produces
the contiguous slices: they concatenate back to the file list (contiguous,
non-overlapping, no gap), every slice is nonempty of length at most
`chunk_length`, every non-final slice has length exactly `chunk_length`,
and the number of slices is `ceil(total / chunk_length)` — at most
`num_chunks`, but not necessarily equal to it. -/
def ChunkPartitionOk {α : Type} (files : List α) (k : Nat) : Prop :=
  chunk_files (FilesToProcess.ofFiles files) k =
    .ok ⟨files, [], planSlices files k⟩
  ∧ (planSlices files k).flatten = files
  ∧ (∀ c ∈ planSlices files k, c ≠ [] ∧ c.length ≤ chunkLength files.length k)
  ∧ (∀ c ∈ (planSlices files k).dropLast, c.length = chunkLength files.length k)
  ∧ (planSlices files k).length =
      (files.length + chunkLength files.length k - 1) / chunkLength files.length k
  ∧ (planSlices files k).length ≤ k

/-! File-list persistence (`pipeline.py` lines 347-364).  A Python `str` is
modelled character-faithfully as `List Char`. -/

/-- `FilesToProcess.to_filelist_file`: the file content written by
`[fh.writelines(L + '\n') for L in self.files]` — each path followed by a
newline, in order. -/
def to_filelist_file (files : List (List Char)) : List Char :=
  (files.map (fun L => L ++ ['\n'])).flatten

/-- Python's `fh.readlines()` on the full file content: split after every
newline character, KEEPING the newline in each returned line; a final
segment with no newline is returned as-is.  `acc` holds the current line in
reverse. -/
def readlinesGo : List Char → List Char → List (List Char)
  | [], acc => if acc = [] then [] else [acc.reverse]
  | c :: cs, acc =>
    if c = '\n' then (acc.reverse ++ ['\n']) :: readlinesGo cs []
    else readlinesGo cs (c :: acc)

/-- `FilesToProcess.from_filelist_file`: `self.files = list(fh.readlines())`
— note `readlines` keeps the trailing newline of every line. -/
def from_filelist_file (content : List Char) : List (List Char) :=
  readlinesGo content []

/-! Pipeline engine (`pipeline.py` lines 19-187).  The shared data dict is
modelled as a record carrying the `skip_next_steps` control flag, the
`filename` key, and an abstract payload `store : σ` standing for all the
remaining keys.  The resolved step callables (the reflection machinery of
`step_callobj`) are modelled as a function from step name to data
transformer; the `classifier` special case is a transformer that only
touches its dedicated slot of the payload. -/

/-- The pipeline `Data` dictionary, restricted to the parts the engine
itself reads and writes. -/
structure Data (σ : Type) where
  skip_next_steps : Bool
  filename : String
  store : σ
deriving DecidableEq

/-- A pipeline: ordered step names, the set of initial step names, and the
resolved per-step callables. -/
structure Pipeline (σ : Type) where
  stepnames : List String
  initial_steps : List String
  step : String → Data σ → Data σ

/-- `Pipeline.__init__` (lines 62-82): build the data dict with
`skip_next_steps = False` and initial payload `s0`, then run exactly the
steps whose names are in `initial_steps`, in declaration order.  The
executed step names are recorded alongside. -/
def Pipeline.init {σ : Type} (p : Pipeline σ) (s0 : σ) : Data σ × List String :=
  p.stepnames.foldl
    (fun acc stepname =>
      if p.initial_steps.contains stepname then
        (p.step stepname acc.1, acc.2 ++ [stepname])
      else acc)
    (⟨false, "", s0⟩, [])

/-- The loop of `Pipeline.run` (lines 112-127) over a step-name list:
skip steps in `initial_steps`; after each executed step check
`skip_next_steps` and, if true, reset it to false and return immediately.
Returns the final data, the executed step names in order, and whether the
early exit was taken. -/
def runSteps {σ : Type} (p : Pipeline σ) :
    List String → Data σ → Data σ × List String × Bool
  | [], d => (d, [], false)
  | stepname :: rest, d =>
    if p.initial_steps.contains stepname then runSteps p rest d
    else
      let d1 := p.step stepname d
      if d1.skip_next_steps then
        ({ d1 with skip_next_steps := false }, [stepname], true)
      else
        let r := runSteps p rest d1
        (r.1, stepname :: r.2.1, r.2.2)

/-- `Pipeline.run` (lines 84-127): set `data['filename']` then drive the
per-file steps. -/
def Pipeline.run {σ : Type} (p : Pipeline σ) (filename : String) (d : Data σ) :
    Data σ × List String × Bool :=
  runSteps p p.stepnames { d with filename := filename }

/-- Conclusion of claim C3 at (`p`, `f`, `d`): when the state reached before
some step `s` is `d1` and the steps executed before it are `tr1`, the whole
invocation executes exactly `tr1 ++ [s]` (every step declared after `s` is
skipped), halts early, and returns `s`'s output with the flag reset to
false — so the flag reads false at the start of the next invocation. -/
def SkipHaltsOk {σ : Type} (p : Pipeline σ) (f : String) (d d1 : Data σ)
    (tr1 : List String) (s : String) : Prop :=
  Pipeline.run p f d =
    ({ p.step s d1 with skip_next_steps := false }, tr1 ++ [s], true)
  ∧ (Pipeline.run p f d).1.skip_next_steps = false

/-- Conclusion of claim C4: construction executes exactly the configured
steps lying in `initial_steps` (the step `s` exactly once), and no `run`
invocation ever executes a step of `initial_steps`. -/
def InitialOnceOk {σ : Type} (p : Pipeline σ) (s0 : σ) (s : String) : Prop :=
  ((Pipeline.init p s0).2).count s = 1
  ∧ (Pipeline.init p s0).2 =
      p.stepnames.filter (fun t => p.initial_steps.contains t)
  ∧ ∀ (f : String) (d : Data σ) (t : String),
      t ∈ (Pipeline.run p f d).2.1 → p.initial_steps.contains t = false

/-- A tiny concrete step table for witnesses: `"halt"` raises the
`skip_next_steps` flag, every other step just increments the payload. -/
def demoStep (s : String) (d : Data Nat) : Data Nat :=
  if s = "halt" then { d with skip_next_steps := true, store := d.store + 10 }
  else { d with store := d.store + 1 }

/-- Witness pipeline for C3: three per-file steps, the middle one halts. -/
def demoPipe : Pipeline Nat := ⟨["load", "halt", "stats"], [], demoStep⟩

/-- Witness pipeline for C4: one initial step and one per-file step. -/
def demoPipe2 : Pipeline Nat :=
  ⟨["createbackground", "process"], ["createbackground"], demoStep⟩

/-! ## Claim theorems: chunking guards and concrete scenarios -/

/-- C7: `prepare_chunking` fails with the configuration error whenever
`num_chunks` exceeds `floor(total_files / 2)`, and the `FilesToProcess` at
that point still has an empty `chunked_files` list (the guard precedes every
mutation, so the failing call changes nothing). -/
theorem prepare_chunking_rejects_too_many_chunks {α : Type} (files : List α)
    (k w : Nat) (mode : String) (h : files.length / 2 < k) :
    prepare_chunking (FilesToProcess.ofFiles files) k w mode =
      .error (.configurationError
        "Number of chunks exceeds more than half the number of files to process. Use less chunks.")
    ∧ (FilesToProcess.ofFiles files).chunked_files = [] := by
  refine ⟨?_, rfl⟩
  have hf : (FilesToProcess.ofFiles files).files = files := rfl
  unfold prepare_chunking
  rw [hf, if_pos h]

/-- Witness for C7: the spec's concrete scenario, 10 files and
`num_chunks = 6` (6 > 5). -/
theorem prepare_chunking_rejects_too_many_chunks_witness :
    ([1,2,3,4,5,6,7,8,9,10] : List Nat).length / 2 < 6
    ∧ (prepare_chunking (FilesToProcess.ofFiles ([1,2,3,4,5,6,7,8,9,10] : List Nat)) 6 2 "pass" =
        .error (.configurationError
          "Number of chunks exceeds more than half the number of files to process. Use less chunks.")
      ∧ (FilesToProcess.ofFiles ([1,2,3,4,5,6,7,8,9,10] : List Nat)).chunked_files = []) :=
  ⟨by decide,
   prepare_chunking_rejects_too_many_chunks [1,2,3,4,5,6,7,8,9,10] 6 2 "pass" (by decide)⟩

/-- C10: for an empty file list the guard `num_chunks > 0 // 2 = 0` fires for
every `num_chunks ≥ 1`, so an empty file set can never be chunked, although
it is itself a perfectly valid `FilesToProcess` (of length 0). -/
theorem prepare_chunking_empty_fileset {α : Type} (k w : Nat) (mode : String)
    (hk : 1 ≤ k) :
    prepare_chunking (FilesToProcess.ofFiles ([] : List α)) k w mode =
      .error (.configurationError
        "Number of chunks exceeds more than half the number of files to process. Use less chunks.")
    ∧ (FilesToProcess.ofFiles ([] : List α)).files.length = 0 := by
  refine ⟨?_, rfl⟩
  have h0 : (FilesToProcess.ofFiles ([] : List α)).files.length / 2 < k := by
    simp only [FilesToProcess.ofFiles, List.length_nil]
    omega
  unfold prepare_chunking
  rw [if_pos h0]

/-- Witness for C10 at `num_chunks = 1`. -/
theorem prepare_chunking_empty_fileset_witness :
    (1 : Nat) ≤ 1
    ∧ (prepare_chunking (FilesToProcess.ofFiles ([] : List Nat)) 1 0 "pass" =
        .error (.configurationError
          "Number of chunks exceeds more than half the number of files to process. Use less chunks.")
      ∧ (FilesToProcess.ofFiles ([] : List Nat)).files.length = 0) :=
  ⟨by decide, prepare_chunking_empty_fileset 1 0 "pass" (by decide)⟩

/-- C6: with `average_window = 0` under a rolling mode the code does NOT
produce bare slices: Python's `[-0:]` slice is the whole list, so every
chunk after the first receives the ENTIRE previous chunk as a background
prefix.  With 4 files, 2 chunks and window 0, rolling mode yields chunk 1 =
`[1,2,3,4]` instead of the slice `[3,4]` (while `'pass'` mode does yield the
bare slices, as the claim states). -/
theorem window_zero_rolling_inserts_whole_prev_chunk :
    prepare_chunking (FilesToProcess.ofFiles [1,2,3,4]) 2 0 "rolling" =
      .ok ⟨[1,2,3,4], [1,2], [[1,2],[1,2,3,4]]⟩
    ∧ ([[1,2],[1,2,3,4]] : List (List Nat)) ≠ [[1,2],[3,4]]
    ∧ prepare_chunking (FilesToProcess.ofFiles [1,2,3,4]) 2 0 "pass" =
      .ok ⟨[1,2,3,4], [], [[1,2],[3,4]]⟩ :=
  ⟨rfl, by decide, rfl⟩

/-- C2 counterexample: for files `[1..10]`, `num_chunks = 2`,
`average_window = 2`, rolling mode, chunk 0 is NOT `[1,2,3,4,5]`: the seeded
window `[1,2]` IS re-inserted at its head (no deduplication), giving
`[1,2,1,2,3,4,5]`.  Chunk 1 is `[4,5,6,7,8,9,10]` as claimed. -/
theorem scenario_ten_files_chunk0_counterexample :
    prepare_chunking (FilesToProcess.ofFiles [1,2,3,4,5,6,7,8,9,10]) 2 2 "rolling" =
      .ok ⟨[1,2,3,4,5,6,7,8,9,10], [1,2,4,5], [[1,2,1,2,3,4,5],[4,5,6,7,8,9,10]]⟩
    ∧ ([[1,2,1,2,3,4,5],[4,5,6,7,8,9,10]] : List (List Nat)) ≠
        [[1,2,3,4,5],[6,7,8,9,10]]
    ∧ ([[1,2,1,2,3,4,5],[4,5,6,7,8,9,10]] : List (List Nat)) ≠
        [[1,2,3,4,5],[4,5,6,7,8,9,10]] :=
  ⟨rfl, by decide, by decide⟩

/-- C2 amended: `chunk_length = 5`; the slices are `[1..5]` and `[6..10]`;
chunk 0 carries the re-inserted background prefix `[1,2]` (the window seeded
from the first two files, inserted without deduplication), so chunk 0 =
`[1,2,1,2,3,4,5]`; chunk 1 carries prefix `[4,5]` (the last 2 files of chunk
0) and equals `[4,5,6,7,8,9,10]`. -/
theorem scenario_ten_files_amended :
    chunkLength 10 2 = 5
    ∧ planSlices ([1,2,3,4,5,6,7,8,9,10] : List Nat) 2 = [[1,2,3,4,5],[6,7,8,9,10]]
    ∧ planPrefList ([1,2,3,4,5,6,7,8,9,10] : List Nat) 2 2 "rolling" = [[1,2],[4,5]]
    ∧ planChunks ([1,2,3,4,5,6,7,8,9,10] : List Nat) 2 2 "rolling" =
        [[1,2,1,2,3,4,5],[4,5,6,7,8,9,10]] :=
  ⟨rfl, rfl, rfl, rfl⟩

/-- C9 counterexample: 9 files with `num_chunks = 4` (within the claimed
valid range `1 ≤ 4 ≤ 9/2 = 4`) produce `chunk_length = ceil(9/4) = 3` and
only `ceil(9/3) = 3` chunks — not exactly 4. -/
theorem chunk_files_nine_files_four_chunks :
    chunk_files (FilesToProcess.ofFiles [1,2,3,4,5,6,7,8,9]) 4 =
      .ok ⟨[1,2,3,4,5,6,7,8,9], [], [[1,2,3],[4,5,6],[7,8,9]]⟩
    ∧ ([[1,2,3],[4,5,6],[7,8,9]] : List (List Nat)).length = 3
    ∧ (3 : Nat) ≠ 4
    ∧ 1 ≤ 4 ∧ 4 ≤ ([1,2,3,4,5,6,7,8,9] : List Nat).length / 2 :=
  ⟨rfl, rfl, by decide, by decide, by decide⟩

/-- C8: the write/reload pair does not round-trip: `readlines()` keeps the
trailing newline of every line, so reloading yields every path with `'\n'`
appended.  Failing input: the file list `["a", "b"]`. -/
theorem filelist_roundtrip_appends_newline :
    from_filelist_file (to_filelist_file [['a'], ['b']]) = [['a','\n'], ['b','\n']]
    ∧ ([['a','\n'], ['b','\n']] : List (List Char)) ≠ [['a'], ['b']] :=
  ⟨rfl, by decide⟩

/-- `readlines` on a newline-free line followed by a newline: the whole line
is returned with its newline kept, and scanning continues afterwards. -/
theorem readlinesGo_line : ∀ (l rest acc : List Char), '\n' ∉ l →
    readlinesGo (l ++ '\n' :: rest) acc =
      (acc.reverse ++ l ++ ['\n']) :: readlinesGo rest [] := by
  intro l
  induction l with
  | nil =>
    intro rest acc h
    simp [readlinesGo]
  | cons x xs ih =>
    intro rest acc h
    have hx : ¬ x = '\n' := fun hx => h (by rw [hx]; exact List.mem_cons_self _ _)
    simp only [List.cons_append, readlinesGo, List.append_eq]
    rw [if_neg hx, ih rest (x :: acc) (fun hm => h (List.mem_cons_of_mem _ hm))]
    simp

/-- In general the write/reload pair appends a newline to every path: for
any file list whose paths contain no newline character, reloading the
written list file yields each original path with `'\n'` appended. -/
theorem filelist_roundtrip_general :
    ∀ (files : List (List Char)), (∀ f ∈ files, '\n' ∉ f) →
      from_filelist_file (to_filelist_file files) =
        files.map (fun f => f ++ ['\n']) := by
  intro files
  induction files with
  | nil => intro h; rfl
  | cons f rest ih =>
    intro h
    unfold to_filelist_file from_filelist_file
    simp only [List.map_cons, List.flatten_cons]
    have hsplit : (f ++ ['\n']) ++ (rest.map (fun L => L ++ ['\n'])).flatten =
        f ++ '\n' :: (rest.map (fun L => L ++ ['\n'])).flatten := by
      simp
    rw [hsplit, readlinesGo_line f _ [] (h f (List.mem_cons_self f rest))]
    have htail := ih (fun g hg => h g (List.mem_cons_of_mem f hg))
    unfold to_filelist_file from_filelist_file at htail
    rw [htail]
    simp

/-! ## Pipeline engine lemmas and claim theorems -/

/-- Running a concatenation of step lists: if the first part halts early the
second is never reached; otherwise the second runs from the first's final
state and the traces concatenate. -/
theorem runSteps_append {σ : Type} (p : Pipeline σ) (l1 l2 : List String)
    (d : Data σ) :
    runSteps p (l1 ++ l2) d =
      (if (runSteps p l1 d).2.2 then runSteps p l1 d
       else
         ((runSteps p l2 (runSteps p l1 d).1).1,
          (runSteps p l1 d).2.1 ++ (runSteps p l2 (runSteps p l1 d).1).2.1,
          (runSteps p l2 (runSteps p l1 d).1).2.2)) := by
  induction l1 generalizing d with
  | nil => simp [runSteps]
  | cons s rest ih =>
    by_cases hc : p.initial_steps.contains s
    · simp only [List.cons_append, runSteps, hc, if_true]
      exact ih d
    · simp only [List.cons_append, runSteps, hc, if_false, Bool.false_eq_true]
      by_cases hskip : (p.step s d).skip_next_steps
      · simp [hskip]
      · by_cases hh : (runSteps p rest (p.step s d)).2.2
        · simp [hskip, ih, hh]
        · simp [hskip, ih, hh]

/-- C3: in every `run(filename)` invocation, if the steps `l1` before `s`
execute without early exit (reaching state `d1` with trace `tr1`) and the
executed per-file step `s` sets `skip_next_steps`, then no step declared
after `s` is executed, the engine resets the flag immediately, and the flag
is false in the returned state, i.e. at the start of the next invocation. -/
theorem run_skip_flag {σ : Type} (p : Pipeline σ) (f : String)
    (l1 l2 : List String) (s : String) (d d1 : Data σ) (tr1 : List String)
    (hsteps : p.stepnames = l1 ++ s :: l2)
    (h1 : runSteps p l1 { d with filename := f } = (d1, tr1, false))
    (h2 : p.initial_steps.contains s = false)
    (h3 : (p.step s d1).skip_next_steps = true) :
    SkipHaltsOk p f d d1 tr1 s := by
  have hstep : runSteps p (s :: l2) d1 =
      ({ p.step s d1 with skip_next_steps := false }, [s], true) := by
    rw [runSteps]
    rw [h2]
    simp only [Bool.false_eq_true, if_false, h3, if_true]
  have key : runSteps p (l1 ++ s :: l2) { d with filename := f } =
      ({ p.step s d1 with skip_next_steps := false }, tr1 ++ [s], true) := by
    rw [runSteps_append, h1]
    simp only [Bool.false_eq_true, if_false, hstep]
  constructor
  · rw [Pipeline.run, hsteps]
    exact key
  · rw [Pipeline.run, hsteps, key]

/-- Witness for C3 on `demoPipe`: step `"halt"` (with `"load"` before it and
`"stats"` after it) raises the flag; the invocation executes exactly
`["load", "halt"]` and returns with the flag false. -/
theorem run_skip_flag_witness :
    demoPipe.stepnames = ["load"] ++ "halt" :: ["stats"]
    ∧ runSteps demoPipe ["load"] ⟨false, "img1", 0⟩ = (⟨false, "img1", 1⟩, ["load"], false)
    ∧ demoPipe.initial_steps.contains "halt" = false
    ∧ (demoPipe.step "halt" ⟨false, "img1", 1⟩).skip_next_steps = true
    ∧ SkipHaltsOk demoPipe "img1" ⟨false, "", 0⟩ ⟨false, "img1", 1⟩ ["load"] "halt" :=
  ⟨rfl, by decide, by decide, by decide,
   run_skip_flag demoPipe "img1" ["load"] ["stats"] "halt" ⟨false, "", 0⟩
     ⟨false, "img1", 1⟩ ["load"] rfl (by decide) (by decide) (by decide)⟩

/-- The construction fold executes exactly the configured step names lying
in `initial_steps`, in declaration order. -/
theorem initFold_trace {σ : Type} (p : Pipeline σ) :
    ∀ (l : List String) (d : Data σ) (tr : List String),
      (l.foldl
        (fun acc stepname =>
          if p.initial_steps.contains stepname then
            (p.step stepname acc.1, acc.2 ++ [stepname])
          else acc)
        (d, tr)).2 = tr ++ l.filter (fun t => p.initial_steps.contains t) := by
  intro l
  induction l with
  | nil => intro d tr; simp
  | cons s rest ih =>
    intro d tr
    by_cases hc : p.initial_steps.contains s
    · simp only [List.foldl_cons, List.filter_cons]
      rw [if_pos hc, if_pos hc, ih, List.append_assoc, List.singleton_append]
    · simp only [List.foldl_cons, List.filter_cons]
      rw [if_neg hc, if_neg hc, ih]

/-- No `run` invocation ever executes a step from `initial_steps`. -/
theorem runSteps_trace_not_initial {σ : Type} (p : Pipeline σ) :
    ∀ (l : List String) (d : Data σ) (t : String),
      t ∈ (runSteps p l d).2.1 → p.initial_steps.contains t = false := by
  intro l
  induction l with
  | nil => intro d t h; simp [runSteps] at h
  | cons s rest ih =>
    intro d t h
    rw [runSteps] at h
    by_cases hc : p.initial_steps.contains s
    · rw [if_pos hc] at h
      exact ih d t h
    · rw [if_neg hc] at h
      by_cases hskip : (p.step s d).skip_next_steps
      · simp only [hskip, if_true] at h
        have : t = s := by simpa using h
        subst this
        simpa using hc
      · simp only [hskip, Bool.false_eq_true, if_false] at h
        rcases List.mem_cons.mp h with h' | h'
        · subst h'
          simpa using hc
        · exact ih (p.step s d) t h'

/-- C4: every configured step in `initial_steps` is executed exactly once,
at construction; the construction trace is exactly the configured initial
steps; `run` never executes an initial step, however many times it is
invoked — there is no way back into the initializing phase. -/
theorem initial_steps_once {σ : Type} (p : Pipeline σ) (s0 : σ) (s : String)
    (hnd : p.stepnames.Nodup) (hs : s ∈ p.stepnames)
    (hi : p.initial_steps.contains s = true) :
    InitialOnceOk p s0 s := by
  have htr : (Pipeline.init p s0).2 =
      p.stepnames.filter (fun t => p.initial_steps.contains t) := by
    rw [Pipeline.init]
    simpa using initFold_trace p p.stepnames ⟨false, "", s0⟩ []
  refine ⟨?_, htr, ?_⟩
  · rw [htr]
    exact List.count_eq_one_of_mem (hnd.filter _)
      (List.mem_filter.mpr ⟨hs, hi⟩)
  · intro f d t ht
    exact runSteps_trace_not_initial p p.stepnames _ t ht

/-- Witness for C4 on `demoPipe2`: the initial step `"createbackground"`. -/
theorem initial_steps_once_witness :
    demoPipe2.stepnames.Nodup
    ∧ "createbackground" ∈ demoPipe2.stepnames
    ∧ demoPipe2.initial_steps.contains "createbackground" = true
    ∧ InitialOnceOk demoPipe2 0 "createbackground" :=
  ⟨by decide, by decide, by decide,
   initial_steps_once demoPipe2 0 "createbackground" (by decide) (by decide) (by decide)⟩

/-! ## Chunk-slicing lemmas -/

theorem takeLastPy_length_of_le {α : Type} (w : Nat) (l : List α) (hw : w ≠ 0)
    (h : w ≤ l.length) : (takeLastPy w l).length = w := by
  unfold takeLastPy
  rw [if_neg hw, List.length_drop]
  omega

theorem takeLastPy_append {α : Type} (w : Nat) (a b : List α) (hw : w ≠ 0)
    (h : w ≤ b.length) : takeLastPy w (a ++ b) = takeLastPy w b := by
  unfold takeLastPy
  rw [if_neg hw, if_neg hw, List.length_append]
  have he : a.length + b.length - w = a.length + (b.length - w) := by omega
  rw [he, List.drop_append]

theorem takeLastPy_self {α : Type} (w : Nat) (l : List α) (h : l.length = w) :
    takeLastPy w l = l := by
  unfold takeLastPy
  split
  · rfl
  · rw [h, Nat.sub_self, List.drop_zero]

theorem chunkSlicesGo_nil {α : Type} (cl fuel : Nat) :
    chunkSlicesGo cl fuel ([] : List α) = [] := by
  cases fuel <;> rfl

theorem chunkSlicesGo_flatten {α : Type} (cl : Nat) (hcl : 1 ≤ cl) :
    ∀ (fuel : Nat) (l : List α), l.length ≤ fuel →
      (chunkSlicesGo cl fuel l).flatten = l := by
  intro fuel
  induction fuel with
  | zero =>
    intro l h
    have hl : l = [] := List.eq_nil_of_length_eq_zero (Nat.le_zero.mp h)
    subst hl
    rfl
  | succ n ih =>
    intro l h
    cases l with
    | nil => rfl
    | cons x xs =>
      rw [chunkSlicesGo, List.flatten_cons,
        ih ((x :: xs).drop cl) (by rw [List.length_drop]; simp at h ⊢; omega)]
      exact List.take_append_drop cl (x :: xs)

theorem chunkSlicesGo_ne_nil {α : Type} (cl fuel : Nat) (l : List α)
    (h1 : l ≠ []) (h2 : l.length ≤ fuel) : chunkSlicesGo cl fuel l ≠ [] := by
  cases fuel with
  | zero =>
    cases l with
    | nil => exact absurd rfl h1
    | cons x xs => simp at h2
  | succ n =>
    cases l with
    | nil => exact absurd rfl h1
    | cons x xs =>
      rw [chunkSlicesGo]
      exact List.cons_ne_nil _ _

theorem chunkSlicesGo_mem {α : Type} (cl : Nat) (hcl : 1 ≤ cl) :
    ∀ (fuel : Nat) (l : List α), l.length ≤ fuel →
      ∀ c ∈ chunkSlicesGo cl fuel l, c ≠ [] ∧ c.length ≤ cl := by
  intro fuel
  induction fuel with
  | zero =>
    intro l h c hc
    have hl : l = [] := List.eq_nil_of_length_eq_zero (Nat.le_zero.mp h)
    subst hl
    simp [chunkSlicesGo_nil] at hc
  | succ n ih =>
    intro l h c hc
    cases l with
    | nil => simp [chunkSlicesGo_nil] at hc
    | cons x xs =>
      rw [chunkSlicesGo] at hc
      rcases List.mem_cons.mp hc with h' | h'
      · subst h'
        constructor
        · apply List.ne_nil_of_length_pos
          rw [List.length_take]
          simp
          omega
        · rw [List.length_take]
          omega
      · exact ih ((x :: xs).drop cl) (by rw [List.length_drop]; simp at h ⊢; omega) c h'

theorem chunkSlicesGo_dropLast {α : Type} (cl : Nat) (hcl : 1 ≤ cl) :
    ∀ (fuel : Nat) (l : List α), l.length ≤ fuel →
      ∀ c ∈ (chunkSlicesGo cl fuel l).dropLast, c.length = cl := by
  intro fuel
  induction fuel with
  | zero =>
    intro l h c hc
    have hl : l = [] := List.eq_nil_of_length_eq_zero (Nat.le_zero.mp h)
    subst hl
    simp [chunkSlicesGo_nil] at hc
  | succ n ih =>
    intro l h c hc
    cases l with
    | nil => simp [chunkSlicesGo_nil] at hc
    | cons x xs =>
      rw [chunkSlicesGo] at hc
      by_cases hrest : (x :: xs).drop cl = []
      · rw [hrest, chunkSlicesGo_nil] at hc
        simp at hc
      · have hlen : ((x :: xs).drop cl).length ≤ n := by
          rw [List.length_drop]
          simp at h ⊢
          omega
        have hne : chunkSlicesGo cl n ((x :: xs).drop cl) ≠ [] :=
          chunkSlicesGo_ne_nil cl n _ hrest hlen
        rw [List.dropLast_cons_of_ne_nil hne] at hc
        rcases List.mem_cons.mp hc with h' | h'
        · subst h'
          rw [List.length_take]
          have : cl < (x :: xs).length := by
            by_contra hcon
            exact hrest (List.drop_eq_nil_of_le (by omega))
          omega
        · exact ih ((x :: xs).drop cl) hlen c h'

theorem chunkSlicesGo_length {α : Type} (cl : Nat) (hcl : 1 ≤ cl) :
    ∀ (fuel : Nat) (l : List α), l.length ≤ fuel →
      (chunkSlicesGo cl fuel l).length = (l.length + cl - 1) / cl := by
  intro fuel
  induction fuel with
  | zero =>
    intro l h
    have hl : l = [] := List.eq_nil_of_length_eq_zero (Nat.le_zero.mp h)
    subst hl
    rw [chunkSlicesGo_nil]
    simp only [List.length_nil, Nat.zero_add]
    exact (Nat.div_eq_of_lt (by omega)).symm
  | succ n ih =>
    intro l h
    cases l with
    | nil =>
      rw [chunkSlicesGo_nil]
      simp only [List.length_nil, Nat.zero_add]
      exact (Nat.div_eq_of_lt (by omega)).symm
    | cons x xs =>
      have hlc := List.length_cons x xs
      rw [chunkSlicesGo, List.length_cons,
        ih ((x :: xs).drop cl) (by rw [List.length_drop]; omega),
        List.length_drop]
      by_cases hm : (x :: xs).length ≤ cl
      · have h1 : (x :: xs).length - cl = 0 := by omega
        rw [h1]
        have h2 : (0 + cl - 1) / cl = 0 := Nat.div_eq_of_lt (by omega)
        rw [h2]
        have h3 : (x :: xs).length + cl - 1 = cl * 1 + ((x :: xs).length - 1) := by
          omega
        rw [h3, Nat.mul_add_div (by omega : 0 < cl)]
        have h5 : ((x :: xs).length - 1) / cl = 0 := Nat.div_eq_of_lt (by omega)
        rw [h5]
      · have h3 : (x :: xs).length - cl + cl - 1 = (x :: xs).length - 1 := by omega
        have h4 : (x :: xs).length + cl - 1 = ((x :: xs).length - 1) + cl := by omega
        rw [h3, h4, Nat.add_div_right _ (by omega : 0 < cl)]

/-! ## Background-insertion lemmas -/

/-- The instrumented loop records exactly the input chunks as the own-files
components. -/
theorem insertBgGo_snd {α : Type} (w : Nat) (r : Bool) :
    ∀ (chunks : List (List α)) (bg : List α) (prev : Option (List α)),
      ((insertBgGo w r bg prev chunks).2).map Prod.snd = chunks := by
  intro chunks
  induction chunks with
  | nil => intro bg prev; rfl
  | cons c rest ih =>
    intro bg prev
    simp only [insertBgGo, List.map_cons]
    rw [ih]

/-- The loop produces one (prefix, own files) pair per input chunk. -/
theorem insertBgGo_length {α : Type} (w : Nat) (r : Bool)
    (chunks : List (List α)) (bg : List α) (prev : Option (List α)) :
    (insertBgGo w r bg prev chunks).2.length = chunks.length := by
  have h := insertBgGo_snd w r chunks bg prev
  calc (insertBgGo w r bg prev chunks).2.length
      = ((insertBgGo w r bg prev chunks).2.map Prod.snd).length :=
        (List.length_map _ _).symm
    _ = chunks.length := by rw [h]

theorem getD_map_fst {α : Type} :
    ∀ (l : List (List α × List α)) (i : Nat),
      (l.map Prod.fst).getD i [] = (l.getD i ([], [])).1 := by
  intro l
  induction l with
  | nil => intro i; simp [List.getD]
  | cons pc rest ih =>
    intro i
    cases i with
    | zero => rfl
    | succ j =>
      rw [List.map_cons, List.getD_cons_succ, List.getD_cons_succ]
      exact ih j

theorem getD_map_join {α : Type} :
    ∀ (l : List (List α × List α)) (i : Nat),
      (l.map (fun pc => pc.1 ++ pc.2)).getD i [] =
        (l.getD i ([], [])).1 ++ (l.getD i ([], [])).2 := by
  intro l
  induction l with
  | nil => intro i; simp [List.getD]
  | cons pc rest ih =>
    intro i
    cases i with
    | zero => rfl
    | succ j =>
      rw [List.map_cons, List.getD_cons_succ, List.getD_cons_succ]
      exact ih j

/-- Invariants of the rolling background loop from the second chunk on:
every inserted prefix has exactly `w` files; the first processed chunk's
prefix is the last `w` files of the previously produced chunk `q`; and each
later prefix is the last `w` files of the produced chunk just before it. -/
theorem insertBgGo_chain {α : Type} (w : Nat) (hw : 1 ≤ w) :
    ∀ (chunks : List (List α)) (bg q : List α),
      w ≤ bg.length → w ≤ q.length →
      (∀ pc ∈ (insertBgGo w true bg (some q) chunks).2, pc.1.length = w)
      ∧ (((insertBgGo w true bg (some q) chunks).2.getD 0 ([], [])).1 =
          if chunks.length = 0 then [] else takeLastPy w q)
      ∧ (∀ i, i + 1 < (insertBgGo w true bg (some q) chunks).2.length →
          ((insertBgGo w true bg (some q) chunks).2.getD (i + 1) ([], [])).1 =
            takeLastPy w
              (((insertBgGo w true bg (some q) chunks).2.getD i ([], [])).1 ++
               ((insertBgGo w true bg (some q) chunks).2.getD i ([], [])).2)) := by
  intro chunks
  induction chunks with
  | nil =>
    intro bg q hbg hq
    refine ⟨?_, ?_, ?_⟩
    · intro pc hpc; simp [insertBgGo] at hpc
    · simp [insertBgGo, List.getD]
    · intro i hi; simp [insertBgGo] at hi
  | cons c rest ih =>
    intro bg q hbg hq
    have hw0 : w ≠ 0 := by omega
    have hqlen : (takeLastPy w q).length = w := takeLastPy_length_of_le w q hw0 hq
    have hpf : takeLastPy w (bg ++ takeLastPy w q) = takeLastPy w q := by
      rw [takeLastPy_append w bg (takeLastPy w q) hw0 (by omega),
        takeLastPy_self w (takeLastPy w q) hqlen]
    have hout : (insertBgGo w true bg (some q) (c :: rest)).2 =
        (takeLastPy w q, c) ::
          (insertBgGo w true (bg ++ takeLastPy w q) (some (takeLastPy w q ++ c)) rest).2 := by
      simp only [insertBgGo, if_true]
      rw [hpf]
    have hbg1 : w ≤ (bg ++ takeLastPy w q).length := by
      rw [List.length_append]; omega
    have hq1 : w ≤ (takeLastPy w q ++ c).length := by
      rw [List.length_append]; omega
    obtain ⟨ihA, ihB, ihC⟩ := ih (bg ++ takeLastPy w q) (takeLastPy w q ++ c) hbg1 hq1
    have hlen : (insertBgGo w true (bg ++ takeLastPy w q)
        (some (takeLastPy w q ++ c)) rest).2.length = rest.length :=
      insertBgGo_length w true rest _ _
    refine ⟨?_, ?_, ?_⟩
    · intro pc hpc
      rw [hout] at hpc
      rcases List.mem_cons.mp hpc with h' | h'
      · subst h'; exact hqlen
      · exact ihA pc h'
    · rw [hout]
      simp [List.getD_cons_zero]
    · intro i hi
      rw [hout] at hi ⊢
      rw [List.length_cons] at hi
      cases i with
      | zero =>
        rw [List.getD_cons_succ, List.getD_cons_zero]
        have hrest : rest.length ≠ 0 := by omega
        rw [ihB, if_neg hrest]
      | succ j =>
        rw [List.getD_cons_succ, List.getD_cons_succ]
        exact ihC j (by omega)

/-- When the chunking preconditions hold, `prepare_chunking` succeeds and
produces exactly the state the instrumented plan functions describe. -/
theorem prepare_chunking_eq {α : Type} (files : List α) (k w : Nat)
    (mode : String) (h1 : 1 ≤ k) (h2 : k ≤ files.length / 2) :
    prepare_chunking (FilesToProcess.ofFiles files) k w mode =
      .ok ⟨files, (planAnnotated files k w mode).1, planChunks files k w mode⟩ := by
  have hn : 2 ≤ files.length := by omega
  have hcl : 1 ≤ chunkLength files.length k := by
    unfold chunkLength
    rw [Nat.one_le_div_iff (by omega)]
    omega
  have hchunk : chunk_files (FilesToProcess.ofFiles files) k =
      .ok ⟨files, [], planSlices files k⟩ := by
    simp only [chunk_files, FilesToProcess.ofFiles]
    rw [if_neg (show ¬ k < 1 by omega), if_neg (show ¬ chunkLength files.length k = 0 by omega)]
    rfl
  unfold prepare_chunking
  rw [if_neg (show ¬ (FilesToProcess.ofFiles files).files.length / 2 < k from by
    simp only [FilesToProcess.ofFiles]; omega)]
  rw [hchunk]
  rfl

/-! ## Claim theorems: C1, C9 amended, C5 -/

/-- C1: for every file list and every `num_chunks` between 1 and
`floor(total/2)`, `prepare_chunking` succeeds (for every `average_window`
and both background modes), each produced chunk is its injected background
files followed by its own files, the own-files portions are exactly the
contiguous slices, and concatenating them in chunk order reproduces the
original file list exactly, with no gap and no overlap. -/
theorem chunking_nonbg_concat {α : Type} (files : List α) (k w : Nat)
    (mode : String) (h1 : 1 ≤ k) (h2 : k ≤ files.length / 2) :
    NonBgConcatOk files k w mode := by
  have hcl : 1 ≤ chunkLength files.length k := by
    unfold chunkLength
    rw [Nat.one_le_div_iff (by omega)]
    omega
  refine ⟨prepare_chunking_eq files k w mode h1 h2, ?_, ?_⟩
  · exact insertBgGo_snd _ _ _ _ _
  · exact chunkSlicesGo_flatten (chunkLength files.length k) hcl files.length files
      (Nat.le_refl _)

/-- Witness for C1: 10 files, 2 chunks, window 2, rolling mode. -/
theorem chunking_nonbg_concat_witness :
    ((1 : Nat) ≤ 2 ∧ 2 ≤ ([1,2,3,4,5,6,7,8,9,10] : List Nat).length / 2)
    ∧ NonBgConcatOk ([1,2,3,4,5,6,7,8,9,10] : List Nat) 2 2 "rolling" :=
  ⟨⟨by decide, by decide⟩,
   chunking_nonbg_concat [1,2,3,4,5,6,7,8,9,10] 2 2 "rolling" (by decide) (by decide)⟩

/-- C9 amended: for `1 ≤ num_chunks ≤ floor(total/2)`, `chunk_files` slices
the list into contiguous non-overlapping chunks of length
`chunk_length = ceil(total/num_chunks)` (final chunk possibly shorter but
nonempty); the number of chunks is `ceil(total/chunk_length)`, which is at
most `num_chunks` but can be strictly smaller. -/
theorem chunk_files_partition {α : Type} (files : List α) (k : Nat)
    (h1 : 1 ≤ k) (h2 : k ≤ files.length / 2) :
    ChunkPartitionOk files k := by
  have hn : 2 ≤ files.length := by omega
  have hcl : 1 ≤ chunkLength files.length k := by
    unfold chunkLength
    rw [Nat.one_le_div_iff (by omega)]
    omega
  have hchunk : chunk_files (FilesToProcess.ofFiles files) k =
      .ok ⟨files, [], planSlices files k⟩ := by
    simp only [chunk_files, FilesToProcess.ofFiles]
    rw [if_neg (show ¬ k < 1 by omega),
      if_neg (show ¬ chunkLength files.length k = 0 by omega)]
    rfl
  have hlen : (planSlices files k).length =
      (files.length + chunkLength files.length k - 1) / chunkLength files.length k :=
    chunkSlicesGo_length (chunkLength files.length k) hcl files.length files
      (Nat.le_refl _)
  have hmul : files.length ≤ k * chunkLength files.length k := by
    have hdm := Nat.div_add_mod (files.length + k - 1) k
    have hmo : (files.length + k - 1) % k < k := Nat.mod_lt _ (by omega)
    unfold chunkLength
    omega
  have hcount : (files.length + chunkLength files.length k - 1) /
      chunkLength files.length k ≤ k := by
    have hsm : (k + 1) * chunkLength files.length k =
        k * chunkLength files.length k + chunkLength files.length k :=
      Nat.succ_mul k _
    have hlt : files.length + chunkLength files.length k - 1 <
        (k + 1) * chunkLength files.length k := by
      rw [hsm]
      omega
    have := (Nat.div_lt_iff_lt_mul
      (show 0 < chunkLength files.length k by omega)).mpr hlt
    omega
  refine ⟨hchunk, ?_, ?_, ?_, hlen, ?_⟩
  · exact chunkSlicesGo_flatten (chunkLength files.length k) hcl files.length files
      (Nat.le_refl _)
  · intro c hc
    exact chunkSlicesGo_mem (chunkLength files.length k) hcl files.length files
      (Nat.le_refl _) c hc
  · intro c hc
    exact chunkSlicesGo_dropLast (chunkLength files.length k) hcl files.length files
      (Nat.le_refl _) c hc
  · rw [hlen]
    exact hcount

/-- Witness for C9 amended: 9 files into 4 requested chunks (3 produced). -/
theorem chunk_files_partition_witness :
    ((1 : Nat) ≤ 4 ∧ 4 ≤ ([1,2,3,4,5,6,7,8,9] : List Nat).length / 2)
    ∧ ChunkPartitionOk ([1,2,3,4,5,6,7,8,9] : List Nat) 4 :=
  ⟨⟨by decide, by decide⟩,
   chunk_files_partition [1,2,3,4,5,6,7,8,9] 4 (by decide) (by decide)⟩

/-- C5 counterexample: files `[1..10]`, `num_chunks = 5` (so slices of
length 2), `average_window = 3`, rolling mode.  Chunk 0's own files are
`[1,2]` — shorter than the window — so the claim says chunk 1's background
files are those (`or fewer`) files `[1,2]`; the code instead inserts
`[3,1,2]`, the last 3 files of chunk 0 as already background-prefixed
(`[1,2,3,1,2]`), which is not the last-3-or-fewer of `[1,2]`. -/
theorem rolling_bg_prev_slice_counterexample :
    planSlices ([1,2,3,4,5,6,7,8,9,10] : List Nat) 5 =
      [[1,2],[3,4],[5,6],[7,8],[9,10]]
    ∧ planChunks ([1,2,3,4,5,6,7,8,9,10] : List Nat) 5 3 "rolling" =
      [[1,2,3,1,2],[3,1,2,3,4],[2,3,4,5,6],[4,5,6,7,8],[6,7,8,9,10]]
    ∧ (planPrefList ([1,2,3,4,5,6,7,8,9,10] : List Nat) 5 3 "rolling").getD 1 [] = [3,1,2]
    ∧ takeLastPy 3 ([1,2] : List Nat) = [1,2]
    ∧ ([3,1,2] : List Nat) ≠ [1,2] :=
  ⟨rfl, rfl, rfl, rfl, by decide⟩

/-- C5 amended: under rolling mode, with effective window
`len(background_files) = (files.take w).length ≥ 1`, the background files
inserted at the head of chunk `i > 0` are exactly the last
`(files.take w).length` files of the produced chunk `i-1` (the previous
chunk as already background-prefixed), in original order, and always
exactly that many — never fewer. -/
theorem rolling_bg_from_prev_chunk {α : Type} (files : List α) (k w : Nat)
    (mode : String) (h1 : 1 ≤ k) (h2 : k ≤ files.length / 2)
    (hm : mode ≠ "pass") (hw : 1 ≤ w) :
    RollingPrevChunkOk files k w mode := by
  intro i hi
  have hn : 2 ≤ files.length := by omega
  have hwe : 1 ≤ (files.take w).length := by
    rw [List.length_take]
    omega
  have hmode : (mode != "pass") = true := by
    simp only [bne_iff_ne, ne_eq]
    exact hm
  have hplan : planAnnotated files k w mode =
      insertBgGo (files.take w).length true (files.take w) none (planSlices files k) := by
    unfold planAnnotated
    rw [hmode]
  have hPrefEq : planPrefList files k w mode =
      (insertBgGo (files.take w).length true (files.take w) none
        (planSlices files k)).2.map Prod.fst := by
    unfold planPrefList
    rw [hplan]
  have hChunksEq : planChunks files k w mode =
      (insertBgGo (files.take w).length true (files.take w) none
        (planSlices files k)).2.map (fun pc => pc.1 ++ pc.2) := by
    unfold planChunks
    rw [hplan]
  cases hsl : planSlices files k with
  | nil =>
    exfalso
    have h0 : (planPrefList files k w mode).length = 0 := by
      rw [hPrefEq, hsl]
      rfl
    omega
  | cons c rest =>
    have hpf0 : takeLastPy (files.take w).length (files.take w) = files.take w :=
      takeLastPy_self _ _ rfl
    have hout : (insertBgGo (files.take w).length true (files.take w) none (c :: rest)).2 =
        (files.take w, c) ::
          (insertBgGo (files.take w).length true (files.take w)
            (some (files.take w ++ c)) rest).2 := by
      simp only [insertBgGo]
      rw [hpf0]
    obtain ⟨chA, chB, chC⟩ := insertBgGo_chain (files.take w).length hwe rest
      (files.take w) (files.take w ++ c) (Nat.le_refl _)
      (by rw [List.length_append]; omega)
    have hlen2 : (insertBgGo (files.take w).length true (files.take w)
        (some (files.take w ++ c)) rest).2.length = rest.length :=
      insertBgGo_length _ _ _ _ _
    have hilen : i + 1 <
        ((files.take w, c) ::
          (insertBgGo (files.take w).length true (files.take w)
            (some (files.take w ++ c)) rest).2).length := by
      have := hi
      rw [hPrefEq, hsl, hout, List.length_map] at this
      exact this
    rw [List.length_cons, hlen2] at hilen
    constructor
    · rw [hPrefEq, hChunksEq, hsl, hout, getD_map_fst, getD_map_join]
      cases i with
      | zero =>
        rw [List.getD_cons_succ, List.getD_cons_zero, chB,
          if_neg (show ¬ rest.length = 0 by omega)]
      | succ j =>
        rw [List.getD_cons_succ, List.getD_cons_succ]
        exact chC j (by omega)
    · rw [hPrefEq, hsl, hout, getD_map_fst, List.getD_cons_succ]
      have hjlt : i < (insertBgGo (files.take w).length true (files.take w)
          (some (files.take w ++ c)) rest).2.length := by omega
      have hmem : (insertBgGo (files.take w).length true (files.take w)
          (some (files.take w ++ c)) rest).2.getD i ([], []) ∈
          (insertBgGo (files.take w).length true (files.take w)
            (some (files.take w ++ c)) rest).2 := by
        rw [List.getD_eq_getElem _ _ hjlt]
        exact List.getElem_mem hjlt
      exact chA _ hmem

/-- Witness for C5 amended: 10 files, 2 chunks, window 2, rolling mode. -/
theorem rolling_bg_from_prev_chunk_witness :
    ((1 : Nat) ≤ 2 ∧ 2 ≤ ([1,2,3,4,5,6,7,8,9,10] : List Nat).length / 2
      ∧ "rolling" ≠ "pass" ∧ (1 : Nat) ≤ 2)
    ∧ RollingPrevChunkOk ([1,2,3,4,5,6,7,8,9,10] : List Nat) 2 2 "rolling" :=
  ⟨⟨by decide, by decide, by decide, by decide⟩,
   rolling_bg_from_prev_chunk [1,2,3,4,5,6,7,8,9,10] 2 2 "rolling"
     (by decide) (by decide) (by decide) (by decide)⟩

end PyOpia
